import Mathlib

/-!
Verification of the network-protocol core of the ncdc Direct Connect client
(hub session, client-to-client session, shared file tree).

Strings from the C code are modelled as `List Char`, unsigned 64-bit sizes as
`Nat` with explicit reduction modulo `2 ^ 64` where the C performs wrapping
`guint64` arithmetic, and fallible C functions returning `NULL` as `Option`.
External collaborators (the filesystem `stat`, the hash database, the TTH
index, the charset bridge) are abstracted as fields of an environment
structure, mirroring how the handlers in `nmdc_cc.c` and `hub.c` call them.
-/

namespace Ncdc

/-! ### ADC parameter escaping (`nmdc_cc.c`, `adc_escape` / `adc_unescape`)

`adc_unescape` walks the string; on a backslash it consumes the next
character, mapping `\s` to space, `\n` to newline and `\\` to a backslash,
and fails (returns `NULL`, here `none`) on any other continuation, including
a backslash that ends the string.  `adc_escape` is the reverse direction. -/

def adc_unescape : List Char → Option (List Char)
  | [] => some []
  | c :: rest =>
    if c = '\\' then
      match rest with
      | [] => none
      | d :: r =>
        if d = 's' then (adc_unescape r).map (fun t => ' ' :: t)
        else if d = 'n' then (adc_unescape r).map (fun t => '\n' :: t)
        else if d = '\\' then (adc_unescape r).map (fun t => '\\' :: t)
        else none
    else (adc_unescape rest).map (fun t => c :: t)

def adc_escape : List Char → List Char
  | [] => []
  | c :: rest =>
    (if c = ' ' then ['\\', 's']
     else if c = '\n' then ['\\', 'n']
     else if c = '\\' then ['\\', '\\']
     else [c]) ++ adc_escape rest

/-- Length of the maximal all-backslash suffix of a list of characters. -/
def trailRun : List Char → Nat
  | [] => 0
  | c :: l => if c = '\\' ∧ l.all (fun x => x = '\\') then l.length + 1 else trailRun l

/-- The failure condition of claim C10 read literally: the input contains a
backslash that is not followed by `s`, `n` or a backslash (a trailing
backslash included). -/
def naiveBad (l : List Char) : Prop :=
  ∃ a b, l = a ++ '\\' :: b ∧
    (b = [] ∨ ∃ d r, b = d :: r ∧ d ≠ 's' ∧ d ≠ 'n' ∧ d ≠ '\\')

/-- The failure condition that actually matches the left-to-right scan of
`adc_unescape`: some backslash that is preceded by an even number of
consecutive backslashes (and therefore starts an escape sequence) is not
followed by `s`, `n` or a backslash. -/
def escBad (l : List Char) : Prop :=
  ∃ a b, l = a ++ '\\' :: b ∧ Even (trailRun a) ∧
    (b = [] ∨ ∃ d r, b = d :: r ∧ d ≠ 's' ∧ d ≠ 'n' ∧ d ≠ '\\')

theorem trailRun_cons_ne {c : Char} (h : c ≠ '\\') (l : List Char) :
    trailRun (c :: l) = trailRun l := by
  simp [trailRun, h]

theorem trailRun_all_bs {l : List Char} (h : l.all (fun x => x = '\\') = true) :
    trailRun l = l.length := by
  induction l with
  | nil => simp [trailRun]
  | cons c t ih =>
    simp only [List.all_cons, Bool.and_eq_true, decide_eq_true_eq] at h
    simp [trailRun, h.1, h.2]

theorem trailRun_bs_bne {d : Char} (hd : d ≠ '\\') (l : List Char) :
    trailRun ('\\' :: d :: l) = trailRun l := by
  have h1 : ((d :: l).all (fun x => x = '\\')) = false := by
    simp [List.all_cons, hd]
  simp [trailRun, h1, hd]

theorem even_trailRun_bs_bs (l : List Char) :
    Even (trailRun ('\\' :: '\\' :: l)) ↔ Even (trailRun l) := by
  by_cases h : l.all (fun x => x = '\\') = true
  · have h2 : (('\\' :: l).all (fun x => x = '\\')) = true := by simp [List.all_cons, h]
    have h3 : trailRun l = l.length := trailRun_all_bs h
    have h4 : ∀ n : Nat, Even (n + 1 + 1) ↔ Even n := by
      intro n
      constructor
      · intro h5
        rcases h5 with ⟨k, hk⟩
        exact ⟨k - 1, by omega⟩
      · intro h5
        rcases h5 with ⟨k, hk⟩
        exact ⟨k + 1, by omega⟩
    simp [trailRun, h2, h, h3, h4]
  · have h2 : (('\\' :: l).all (fun x => x = '\\')) = false := by
      cases h3 : l.all (fun x => x = '\\') <;> simp [List.all_cons, h3] at h ⊢
    simp [trailRun, h2, h]

theorem unescape_cons_ne {c : Char} (hc : c ≠ '\\') (l : List Char) :
    adc_unescape (c :: l) = (adc_unescape l).map (fun t => c :: t) := by
  rw [adc_unescape.eq_def]
  simp [hc]

theorem unescape_bs_s (r : List Char) :
    adc_unescape ('\\' :: 's' :: r) = (adc_unescape r).map (fun t => ' ' :: t) := by
  rw [adc_unescape.eq_def]
  simp

theorem unescape_bs_n (r : List Char) :
    adc_unescape ('\\' :: 'n' :: r) = (adc_unescape r).map (fun t => '\n' :: t) := by
  rw [adc_unescape.eq_def]
  simp

theorem unescape_bs_bs (r : List Char) :
    adc_unescape ('\\' :: '\\' :: r) = (adc_unescape r).map (fun t => '\\' :: t) := by
  rw [adc_unescape.eq_def]
  simp

theorem unescape_bs_other {d : Char} (h1 : d ≠ 's') (h2 : d ≠ 'n') (h3 : d ≠ '\\')
    (r : List Char) : adc_unescape ('\\' :: d :: r) = none := by
  rw [adc_unescape.eq_def]
  simp [h1, h2, h3]

theorem escBad_cons {c : Char} (hc : c ≠ '\\') (l : List Char) :
    escBad (c :: l) ↔ escBad l := by
  constructor
  · rintro ⟨a, b, heq, hev, hbad⟩
    cases a with
    | nil => simp at heq; exact absurd heq.1 hc
    | cons a0 a' =>
      simp only [List.cons_append, List.cons.injEq] at heq
      obtain ⟨h1, h2⟩ := heq
      subst h1
      rw [trailRun_cons_ne hc] at hev
      exact ⟨a', b, h2, hev, hbad⟩
  · rintro ⟨a, b, heq, hev, hbad⟩
    exact ⟨c :: a, b, by simp [heq], by rw [trailRun_cons_ne hc]; exact hev, hbad⟩

theorem escBad_esc {d : Char} (hd : d = 's' ∨ d = 'n') (l : List Char) :
    escBad ('\\' :: d :: l) ↔ escBad l := by
  have hdb : d ≠ '\\' := by rcases hd with h | h <;> subst h <;> decide
  constructor
  · rintro ⟨a, b, heq, hev, hbad⟩
    cases a with
    | nil =>
      simp only [List.nil_append, List.cons.injEq, true_and] at heq
      rcases hbad with hb | ⟨e, r, hbe, hes, hen, hebs⟩
      · subst hb; simp at heq
      · subst hbe
        injection heq with h1 h2
        rcases hd with h | h <;> subst h
        · exact absurd h1.symm hes
        · exact absurd h1.symm hen
    | cons a0 a' =>
      simp only [List.cons_append, List.cons.injEq] at heq
      obtain ⟨h1, h2⟩ := heq
      subst h1
      cases a' with
      | nil =>
        simp only [List.nil_append, List.cons.injEq] at h2
        exact absurd h2.1 hdb
      | cons a1 a'' =>
        simp only [List.cons_append, List.cons.injEq] at h2
        obtain ⟨h3, h4⟩ := h2
        subst h3
        rw [trailRun_bs_bne hdb] at hev
        exact ⟨a'', b, h4, hev, hbad⟩
  · rintro ⟨a, b, heq, hev, hbad⟩
    refine ⟨'\\' :: d :: a, b, by simp [heq], ?_, hbad⟩
    rw [trailRun_bs_bne hdb]
    exact hev

theorem escBad_twobs (l : List Char) : escBad ('\\' :: '\\' :: l) ↔ escBad l := by
  constructor
  · rintro ⟨a, b, heq, hev, hbad⟩
    cases a with
    | nil =>
      simp only [List.nil_append, List.cons.injEq, true_and] at heq
      rcases hbad with hb | ⟨e, r, hbe, hes, hen, hebs⟩
      · subst hb; simp at heq
      · subst hbe
        injection heq with h1 h2
        exact absurd h1.symm hebs
    | cons a0 a' =>
      simp only [List.cons_append, List.cons.injEq] at heq
      obtain ⟨h1, h2⟩ := heq
      subst h1
      cases a' with
      | nil =>
        simp [trailRun] at hev
      | cons a1 a'' =>
        simp only [List.cons_append, List.cons.injEq] at h2
        obtain ⟨h3, h4⟩ := h2
        subst h3
        exact ⟨a'', b, h4, (even_trailRun_bs_bs a'').mp hev, hbad⟩
  · rintro ⟨a, b, heq, hev, hbad⟩
    exact ⟨'\\' :: '\\' :: a, b, by simp [heq], (even_trailRun_bs_bs a).mpr hev, hbad⟩

theorem unescape_eq_none_iff :
    ∀ (n : Nat) (l : List Char), l.length ≤ n → (adc_unescape l = none ↔ escBad l)
  | _, [], _ => by
    constructor
    · intro h; exact absurd h (by simp [adc_unescape])
    · rintro ⟨a, b, heq, _, _⟩
      exact absurd heq (by simp)
  | n + 1, c :: rest, hlen => by
    by_cases hc : c = '\\'
    · subst hc
      cases rest with
      | nil =>
        constructor
        · intro _; exact ⟨[], [], rfl, by simp [trailRun], Or.inl rfl⟩
        · intro _; rfl
      | cons d r =>
        have hr : r.length ≤ n := by simp at hlen; omega
        by_cases hs : d = 's'
        · subst hs
          rw [unescape_bs_s, Option.map_eq_none', unescape_eq_none_iff n r hr,
            escBad_esc (Or.inl rfl)]
        · by_cases hn2 : d = 'n'
          · subst hn2
            rw [unescape_bs_n, Option.map_eq_none', unescape_eq_none_iff n r hr,
              escBad_esc (Or.inr rfl)]
          · by_cases hbs : d = '\\'
            · subst hbs
              rw [unescape_bs_bs, Option.map_eq_none', unescape_eq_none_iff n r hr,
                escBad_twobs]
            · rw [unescape_bs_other hs hn2 hbs]
              constructor
              · intro _
                exact ⟨[], d :: r, rfl, by simp [trailRun], Or.inr ⟨d, r, rfl, hs, hn2, hbs⟩⟩
              · intro _; rfl
    · have hr : rest.length ≤ n := by simp at hlen; omega
      rw [unescape_cons_ne hc, Option.map_eq_none', unescape_eq_none_iff n rest hr,
        escBad_cons hc]

theorem unescape_escape (s : List Char) : adc_unescape (adc_escape s) = some s := by
  induction s with
  | nil => rfl
  | cons c r ih =>
    by_cases h1 : c = ' '
    · subst h1
      simp only [adc_escape, reduceIte, List.cons_append, List.nil_append]
      rw [unescape_bs_s, ih]
      rfl
    · by_cases h2 : c = '\n'
      · subst h2
        simp only [adc_escape, if_neg h1, reduceIte, List.cons_append, List.nil_append]
        rw [unescape_bs_n, ih]
        rfl
      · by_cases h3 : c = '\\'
        · subst h3
          simp only [adc_escape, if_neg h1, if_neg h2, reduceIte, List.cons_append,
            List.nil_append]
          rw [unescape_bs_bs, ih]
          rfl
        · simp only [adc_escape, if_neg h1, if_neg h2, if_neg h3, List.cons_append,
            List.nil_append]
          rw [unescape_cons_ne h3, ih]
          rfl

/-- C10 (counterexample): the three-character string `\\x` (backslash,
backslash, `x`) contains a backslash that is not followed by `s`, `n` or a
backslash — the second one — yet `adc_unescape` accepts it (the second
backslash is consumed as the escaped character of the first), refuting the
literal failure condition of the claim. -/
theorem c10_counterexample :
    naiveBad ['\\', '\\', 'x'] ∧
    adc_unescape ['\\', '\\', 'x'] = some ['\\', 'x'] ∧
    adc_unescape ['\\', '\\', 'x'] ≠ none := by
  refine ⟨⟨['\\'], ['x'], rfl, Or.inr ⟨'x', [], rfl, by decide, by decide, by decide⟩⟩, ?_, ?_⟩
  · rfl
  · simp [adc_unescape]

/-- C10 (amended): `adc_unescape` is a left inverse of `adc_escape`, and
`adc_unescape` fails exactly when some backslash that starts an escape
sequence — i.e. is preceded by an even number of consecutive backslashes —
is not followed by `s`, `n` or a backslash (a trailing backslash included). -/
theorem c10_roundtrip_and_failure_condition :
    (∀ s : List Char, adc_unescape (adc_escape s) = some s) ∧
    (∀ l : List Char, adc_unescape l = none ↔ escBad l) :=
  ⟨unescape_escape, fun l => unescape_eq_none_iff l.length l le_rfl⟩

/-! ### The shared file tree (`struct fl_list`)

A node is a file (with `size`, 24-byte `tth`, `hastth` flag) or a directory
(with rolled-up `size`, the `hastth` child counter and the ordered child
sequence `sub`).  The root of a list has a `NULL` name, hence
`Option (List Char)` for names.  Parent pointers of the C struct are
implicit: mutations are modelled as functions taking the root and the name
path of the affected node, updating size/`hastth` on the way back up exactly
as the `while(parent)` loops in `fl_list_add` / `fl_list_remove` do.
`guint64` sizes are `Nat` reduced modulo `2 ^ 64` by `wadd` / `wsub`. -/

inductive FlList where
  | file (name : Option (List Char)) (size : Nat) (tth : List Nat) (hastth : Bool)
  | dir (name : Option (List Char)) (size : Nat) (hastth : Int) (incomplete : Bool)
      (sub : List FlList)

def FlList.name : FlList → Option (List Char)
  | .file n _ _ _ => n
  | .dir n _ _ _ _ => n

def FlList.size : FlList → Nat
  | .file _ sz _ _ => sz
  | .dir _ sz _ _ _ => sz

def FlList.isfile : FlList → Bool
  | .file _ _ _ _ => true
  | .dir _ _ _ _ _ => false

def FlList.sub : FlList → List FlList
  | .file _ _ _ _ => []
  | .dir _ _ _ _ s => s

/-- `fl->hastth` truthiness of a file node (`int` 1/0 in the C). -/
def FlList.hastthFile : FlList → Bool
  | .file _ _ _ h => h
  | .dir _ _ h _ _ => decide (h ≠ 0)

/-- The 64-bit wrap-around of `guint64` addition (`parent->size += cur->size`). -/
def wadd (a b : Nat) : Nat := (a + b) % 2 ^ 64

/-- The 64-bit wrap-around of `guint64` subtraction (`par->size -= fl->size`). -/
def wsub (a b : Nat) : Nat := (a + (2 ^ 64 - b % 2 ^ 64)) % 2 ^ 64

/-- `strcmp(a, b) < 0` on names, byte-wise (`fl_list_cmp`). -/
def strLt : List Char → List Char → Bool
  | [], [] => false
  | [], _ :: _ => true
  | _ :: _, [] => false
  | a :: as, b :: bs =>
    if a.toNat < b.toNat then true
    else if b.toNat < a.toNat then false
    else strLt as bs

def nameD (f : FlList) : List Char := f.name.getD []

/-- `g_sequence_insert_sorted(parent->sub, cur, fl_list_cmp, NULL)`: insert
before the first strictly greater sibling (ties keep existing items first). -/
def fl_list_insert (cur : FlList) : List FlList → List FlList
  | [] => [cur]
  | c :: cs => if strLt (nameD cur) (nameD c) then cur :: c :: cs else c :: fl_list_insert cur cs

/-- The `hastth` child predicate of `fl_list_add` / `fl_list_remove`:
`!cur->isfile || (cur->isfile && cur->hastth)`. -/
def countsHastth (cur : FlList) : Bool := !cur.isfile || (cur.isfile && cur.hastthFile)

/-- Apply `f` to the first child whose name is `d`; `none` if no such child
or if `f` fails there. -/
def updateNamed (d : List Char) (f : FlList → Option FlList) : List FlList → Option (List FlList)
  | [] => none
  | c :: cs =>
    if c.name = some d then (f c).map (fun c2 => c2 :: cs)
    else (updateNamed d f cs).map (fun l2 => c :: l2)

/-- `fl_list_add(parent, cur)`, with the parent directory designated by its
name path from the root: insert `cur` into the parent's ordered child
sequence, bump the parent's `hastth` counter, and add `cur->size` to the
parent and every further ancestor up to the root. -/
def fl_list_add : FlList → List (List Char) → FlList → Option FlList
  | .file _ _ _ _, _, _ => none
  | .dir n sz ht inc sub, [], cur =>
    some (.dir n (wadd sz cur.size) (ht + (if countsHastth cur then 1 else 0)) inc
      (fl_list_insert cur sub))
  | .dir n sz ht inc sub, d :: rest, cur =>
    (updateNamed d (fun c => fl_list_add c rest cur) sub).map
      (fun sub2 => .dir n (wadd sz cur.size) ht inc sub2)

/-- Remove (and return) the first child named `d`. -/
def removeNamed (d : List Char) : List FlList → Option (FlList × List FlList)
  | [] => none
  | c :: cs =>
    if c.name = some d then some (c, cs)
    else (removeNamed d cs).map (fun p => (p.1, c :: p.2))

/-- Like `updateNamed` but for an update that also reports the size of the
removed node, which every ancestor must subtract. -/
def updateNamedSz (d : List Char) (f : FlList → Option (FlList × Nat)) :
    List FlList → Option (List FlList × Nat)
  | [] => none
  | c :: cs =>
    if c.name = some d then (f c).map (fun p => (p.1 :: cs, p.2))
    else (updateNamedSz d f cs).map (fun p => (c :: p.1, p.2))

/-- `fl_list_remove(fl)`, with `fl` designated by its (nonempty) name path
from the root: drop it from its parent's child sequence, decrement the
parent's `hastth` counter, and subtract `fl->size` from every ancestor.
Also returns the removed node's size. -/
def fl_list_remove : FlList → List (List Char) → Option (FlList × Nat)
  | .file _ _ _ _, _ => none
  | .dir _ _ _ _ _, [] => none
  | .dir n sz ht inc sub, [d] =>
    (removeNamed d sub).map (fun p =>
      (.dir n (wsub sz p.1.size) (ht - (if countsHastth p.1 then 1 else 0)) inc p.2,
        p.1.size))
  | .dir n sz ht inc sub, d :: rest =>
    (updateNamedSz d (fun c => fl_list_remove c rest) sub).map
      (fun p => (.dir n (wsub sz p.2) ht inc p.1, p.2))

/-- `fl_list_file(dir, name)`: the child of `dir` carrying `name` (a binary
search over the name-sorted `GSequence` in the C; on a sorted sequence it
returns the unique child of that name, which `find?` computes). -/
def fl_list_file (dir : FlList) (nm : List Char) : Option FlList :=
  dir.sub.find? (fun c => c.name == some nm)

/-- The join performed by the upward loop of `fl_list_path`: the node's name
preceded by all ancestor names below the root, `g_build_filename`-joined
with `/`. -/
def renderNames : List (List Char) → List Char
  | [] => []
  | [a] => a
  | a :: rest => a ++ '/' :: renderNames rest

/-- `fl_list_path(fl)` for the node whose root-to-node name path is `p`
(the root itself has `p = []` and renders as `"/"`). -/
def fl_list_path (p : List (List Char)) : List Char :=
  match p with
  | [] => ['/']
  | _ :: _ => '/' :: renderNames p

theorem dropWhile_length_le {α : Type} (p : α → Bool) (l : List α) :
    (l.dropWhile p).length ≤ l.length := by
  induction l with
  | nil => simp
  | cons c t ih =>
    rw [List.dropWhile_cons]
    split
    · exact Nat.le_succ_of_le ih
    · simp

/-- `fl_list_from_path(root, path)`: strip leading slashes, look up the first
component with `fl_list_file`, recurse on the remainder.  Case-sensitive,
`/`-separated, `..` unsupported. -/
def fl_list_from_path (root : FlList) (path : List Char) : Option FlList :=
  let p := path.dropWhile (fun c => c == '/')
  if p = [] then some root
  else
    let nm := p.takeWhile (fun c => c != '/')
    match fl_list_file root nm with
    | none => none
    | some n =>
      if nm.length = p.length then some n
      else if n.isfile then none
      else fl_list_from_path n (p.drop (nm.length + 1))
termination_by path.length
decreasing_by
  simp only [List.length_drop]
  have h1 : (path.dropWhile (fun c => c == '/')).length ≤ path.length :=
    dropWhile_length_le _ _
  have h2 : (path.dropWhile (fun c => c == '/')).length ≠ 0 := by
    intro h
    exact absurd (List.length_eq_zero.mp h) (by assumption)
  omega

/-! ### File-tree search (`fl_list_search` and the `$Search` handler) -/

/-- Contiguous-substring test (the behaviour of `strstr`): `needle` occurs
somewhere in `hay`. -/
def hasInfix : List Char → List Char → Bool
  | n, [] => n.isEmpty
  | n, c :: cs => n.isPrefixOf (c :: cs) || hasInfix n cs

/-- Modelled from the spec: `str_casestr(haystack, needle)` (from the utility
module, not under `src/`) is a case-insensitive substring test. -/
def str_casestr (hay needle : List Char) : Bool :=
  hasInfix (needle.map Char.toLower) (hay.map Char.toLower)

/-- `rindex(name, '.')` followed by one step: the characters after the last
dot, or `none` when the name has no dot. -/
def afterLastDot (nm : List Char) : Option (List Char) :=
  if nm.contains '.' then some ((nm.reverse.takeWhile (fun c => c != '.')).reverse) else none

/-- `fl_list_search_match_name`: every include term occurs in the name
(case-insensitively), and, when an extension whitelist is given, the part of
the name after the last dot is nonempty and case-insensitively equals one of
the extensions. -/
def fl_list_search_match_name (fl : FlList) (ext inc : List (List Char)) : Bool :=
  if inc.any (fun t => !str_casestr (nameD fl) t) then false
  else if ext.isEmpty then true
  else
    match afterLastDot (nameD fl) with
    | none => false
    | some l => !l.isEmpty && ext.any (fun e => l.map Char.toLower == e.map Char.toLower)

/-- The `fl_list_search_matches` macro: file/dir mask (`filedir` bits), the
signed size predicate, and the name match.  Only files with `hastth` set
match the file bit. -/
def fl_list_search_matches (fl : FlList) (size_m : Int) (s : Nat) (filedir : Nat)
    (ext inc : List (List Char)) : Bool :=
  ((filedir &&& 2 != 0) && !fl.isfile || ((filedir &&& 1 != 0) && fl.isfile && fl.hastthFile))
    && (size_m == 0 || (decide (size_m < 0) && decide (fl.size < s))
        || (decide (0 < size_m) && decide (s < fl.size)))
    && fl_list_search_match_name fl ext inc

mutual

/-- `fl_list_search(parent, …, res, max)`: weed out include terms already
matched by the parent directory's name, then run the bounded depth-first
loop over the children.  Returns the collected nodes (`res[0..i)`); the C
return value is their number. -/
def fl_list_search (parent : FlList) (size_m : Int) (s : Nat) (filedir : Nat)
    (ext inc : List (List Char)) (mx : Nat) : List FlList :=
  match parent with
  | .file _ _ _ _ => []
  | .dir nm _ _ _ sub =>
    let ninc := match nm with
      | none => inc
      | some pn => inc.filter (fun t => !str_casestr pn t)
    searchLoop size_m s filedir ext ninc mx sub

/-- The `for` loop of `fl_list_search`, with `mx` the remaining budget
(`max - i`): stop when the budget is exhausted, collect a matching child,
and recurse into child directories with the leftover budget. -/
def searchLoop (size_m : Int) (s : Nat) (filedir : Nat) (ext ninc : List (List Char)) :
    Nat → List FlList → List FlList
  | _, [] => []
  | 0, _ :: _ => []
  | mx + 1, n :: rest =>
    let r1 : List FlList :=
      if fl_list_search_matches n size_m s filedir ext ninc then [n] else []
    let b1 := mx + 1 - r1.length
    let r2 : List FlList :=
      if !n.isfile && decide (0 < b1) then fl_list_search n size_m s filedir ext ninc b1
      else []
    r1 ++ r2 ++ searchLoop size_m s filedir ext ninc (b1 - r2.length) rest

end

/-- The TTH branch of `nmdc_search`: walk the index entries for the root,
keeping those that also satisfy the other search requirements, up to `mx`
(the include list is `NULL` there). -/
def collectTth (size_m : Int) (s : Nat) (filedir : Nat) (ext : List (List Char)) :
    Nat → List FlList → List FlList
  | _, [] => []
  | 0, _ :: _ => []
  | mx + 1, c :: rest =>
    if fl_list_search_matches c size_m s filedir ext [] then
      c :: collectTth size_m s filedir ext mx rest
    else collectTth size_m s filedir ext (mx + 1) rest

/-- The static extension table of `nmdc_search`, indexed by `type - 1`. -/
def exts (i : Nat) : List (List Char) :=
  match i with
  | 1 => ["mp3".toList, "mp2".toList, "wav".toList, "au".toList, "rm".toList,
      "mid".toList, "sm".toList]
  | 2 => ["zip".toList, "arj".toList, "rar".toList, "lzh".toList, "gz".toList,
      "z".toList, "arc".toList, "pak".toList]
  | 3 => ["doc".toList, "txt".toList, "wri".toList, "pdf".toList, "ps".toList,
      "tex".toList]
  | 4 => ["pm".toList, "exe".toList, "bat".toList, "com".toList]
  | 5 => ["gif".toList, "jpg".toList, "jpeg".toList, "bmp".toList, "pcx".toList,
      "png".toList, "wmf".toList, "psd".toList]
  | 6 => ["mpg".toList, "mpeg".toList, "avi".toList, "asf".toList, "mov".toList]
  | _ => []

/-! ### Hub users (`struct hub_user`, `hub.c`) and the `BINF` / `$OpList`
handlers -/

/-- `isspace` characters skipped by `strtol`. -/
def isCSpace (c : Char) : Bool :=
  c == ' ' || c == '\t' || c == '\n' || c == '\r' || c == '\x0b' || c == '\x0c'

def digitsVal (l : List Char) : Nat :=
  l.foldl (fun a c => a * 10 + (c.toNat - 48)) 0

/-- `strtol(p, NULL, 10)`: optional whitespace, optional sign, longest
decimal digit run (0 when there is none; the `LONG_MAX` saturation on
overflow is not modelled — the handlers only feed short digit strings). -/
def parseLong (s : List Char) : Int :=
  let s1 := s.dropWhile isCSpace
  match s1 with
  | '-' :: r => -(digitsVal (r.takeWhile Char.isDigit) : Int)
  | '+' :: r => (digitsVal (r.takeWhile Char.isDigit) : Int)
  | _ => (digitsVal (s1.takeWhile Char.isDigit) : Int)

/-- `g_ascii_strtoull(p, NULL, 10)` on the digit strings the handlers feed it
(sign and saturation on overflow are not modelled). -/
def parseU64 (s : List Char) : Nat :=
  digitsVal ((s.dropWhile isCSpace).takeWhile Char.isDigit) % 2 ^ 64

/-- C assignment of a `long` to an `unsigned char`: reduction modulo 256. -/
def toUChar (v : Int) : Nat := ((v % 256 + 256) % 256).toNat

/-- `struct hub_user` (fields zeroed by `g_slice_new0`).  `as` is the
auto-open-slot threshold in bytes per second (`auto_slot_bps`). -/
structure HubUser where
  hasinfo : Bool := false
  isop : Bool := false
  active : Bool := false
  h_norm : Nat := 0
  h_reg : Nat := 0
  h_op : Nat := 0
  slots : Nat := 0
  as : Nat := 0
  name : List Char := []
  name_hub : Option (List Char) := none
  desc : Option (List Char) := none
  conn : Option (List Char) := none
  mail : Option (List Char) := none
  client : Option (List Char) := none
  sid : Nat := 0
  cid : List Nat := []
  sharesize : Nat := 0
deriving Repr, DecidableEq

/-- One field of a `BINF` payload in `user_adc_nfo` (`hub.c`, the `switch` on
the two-letter key).  `b32` abstracts `base32_decode` for the `ID` field.
Note the `AS` case: the source (hub.c line 335) assigns `u->slots`, not
`u->as`.  The roster re-keying of the `NI` case and the `ui_*` notifications
act outside the user record and are not modelled. -/
def applyAdcField (b32 : List Char → List Nat) (u : HubUser) (f : List Char) : HubUser :=
  match f with
  | k1 :: k2 :: p =>
    if k1 = 'N' ∧ k2 = 'I' then { u with name := p }
    else if k1 = 'D' ∧ k2 = 'E' then { u with desc := if p.isEmpty then none else some p }
    else if k1 = 'V' ∧ k2 = 'E' then { u with client := if p.isEmpty then none else some p }
    else if k1 = 'E' ∧ k2 = 'M' then { u with mail := if p.isEmpty then none else some p }
    else if k1 = 'I' ∧ k2 = 'D' then
      if p.length = 39 then { u with cid := b32 p } else u
    else if k1 = 'S' ∧ k2 = 'S' then { u with sharesize := parseU64 p }
    else if k1 = 'H' ∧ k2 = 'N' then { u with h_norm := toUChar (parseLong p) }
    else if k1 = 'H' ∧ k2 = 'R' then { u with h_reg := toUChar (parseLong p) }
    else if k1 = 'H' ∧ k2 = 'O' then { u with h_op := toUChar (parseLong p) }
    else if k1 = 'S' ∧ k2 = 'L' then { u with slots := toUChar (parseLong p) }
    else if k1 = 'A' ∧ k2 = 'S' then { u with slots := toUChar (parseLong p) }
    else if k1 = 'S' ∧ k2 = 'U' then
      { u with active := hasInfix "TCP4".toList p || hasInfix "TCP6".toList p }
    else if k1 = 'C' ∧ k2 = 'T' then { u with isop := decide (4 ≤ parseLong p) }
    else u
  | _ => u

/-- `user_adc_nfo(hub, u, cmd)`: mark the advertisement received, adopt the
source SID and fold the `BINF` fields over the user record. -/
def user_adc_nfo (b32 : List Char → List Nat) (u : HubUser) (source : Nat)
    (argv : List (List Char)) : HubUser :=
  argv.foldl (applyAdcField b32) { u with hasinfo := true, sid := source }

/-- The NMDC roster: `hub->users`, keyed by hub-encoded nick. -/
abbrev Roster := List (List Char × HubUser)

/-- `user_add(hub, name)` on the NMDC dialect: look the raw nick up, insert a
fresh user (UTF-8 name via the charset bridge `decode`) when missing. -/
def user_add_nmdc (decode : List Char → List Char) (users : Roster) (nm : List Char) : Roster :=
  match List.lookup nm users with
  | some _ => users
  | none => users ++ [(nm, { name_hub := some nm, name := decode nm })]

/-- `g_strsplit(str, "$$", 0)`: split at each non-overlapping `$$`,
left-to-right, keeping empty tokens. -/
def splitDD : List Char → List (List Char)
  | [] => [[]]
  | '$' :: '$' :: rest => [] :: splitDD rest
  | c :: rest =>
    match splitDD rest with
    | [] => [[c]]
    | x :: xs => (c :: x) :: xs

/-- The `$OpList` handler of `nmdc_handle` (`hub.c`): split the frame body on
`$$`, walk the names until the first empty entry (the loop condition
`*cur && **cur`), add missing users, set `isop` on each listed user, and
recompute whether the hub considers us an operator.  Existing `isop` flags of
users that are not listed are left untouched (the source comments that
clearing them is "too inefficient").  Returns the new roster and `hub->isop`. -/
def nmdc_oplist (decode : List Char → List Char) (hubNick : List Char) (users : Roster)
    (content : List Char) : Roster × Bool :=
  let names := (splitDD content).takeWhile (fun s => !s.isEmpty)
  names.foldl (fun st nm =>
    let us := user_add_nmdc decode st.1 nm
    let us := us.map (fun e => if e.1 = nm then (e.1, { e.2 with isop := true }) else e)
    (us, st.2 || nm == hubNick)) (users, false)

/-! ### The C↔C session (`nmdc_cc.c`): slot admission and `$ADCGET` -/

def tthlStr : List Char := "tthl".toList
def fileStr : List Char := "file".toList
def tthSlashStr : List Char := "TTH/".toList
def filesXmlStr : List Char := "files.xml.bz2".toList
def fnaMsg : List Char := "File Not Available".toList
def invalidArgsMsg : List Char := "Invalid ADCGET arguments".toList
def unsupportedMsg : List Char := "Unsupported ADCGET type".toList
def noSlotsMsg : List Char := "No Slots Available".toList
def userNotOnHubMsg : List Char := "User is not on the hub".toList
def tooManyConnMsg : List Char := "too many open connections with this user".toList
def beforeMyNickMsg : List Char := "Received $ADCGET before $MyNick".toList
def noAdcgetSupportMsg : List Char := "Client does not support ADCGet".toList
def extendedStr : List Char := "EXTENDEDPROTOCOL".toList

/-- Reply frames a C↔C handler can emit (`net_send` / `net_sendf`). -/
inductive Frame where
  | supportsReply
  | direction
  | key (k : List Char)
  | adcsnd (typ : List Char) (id : List Char) (start : Nat) (bytes : Int)
  | error (msg : List Char)
  | maxedOut
deriving Repr, DecidableEq

/-- Observable transport actions of a handler: a command frame, raw bytes
(`net_send_raw`), or streaming a byte range of a disk file (`net_sendfile`). -/
inductive OutAct where
  | send (f : Frame)
  | sendRaw (dat : List Nat)
  | sendFileRange (path : List Char) (offset : Nat) (len : Int)
deriving Repr, DecidableEq

/-- Result of `stat(2)` on a path: size and the `S_ISREG` bit. -/
structure StatRec where
  size : Nat
  isReg : Bool
deriving Repr, DecidableEq

/-- The world the `nmdc_cc.c` handlers call into: the local share and its
file-list file, `fl_local_path`+`g_filename_from_utf8` (`localPath`, which
can fail), the TTH index `fl_local_from_tth`, the hash-tree store
`fl_hashdat_get`, `base32_decode`, `stat`, the per-connection remaining byte
counts backing `nmdc_cc_slots_in_use`, the configured slot count, UTF-8
validation, the charset bridge, `nmdc_lock2key`, and whether another open
connection with the same raw nick exists (`nmdc_cc_get_conn`). -/
structure Env where
  flLocalList : Option FlList
  flLocalListFile : List Char
  localPath : FlList → Option (List Char)
  tthIndex : List Nat → List FlList
  hashdat : List Nat → Option (List Nat)
  base32decode : List Char → List Nat
  statFs : List Char → Option StatRec
  ccFileLeft : List Nat
  confSlots : Nat
  utf8valid : List Char → Bool
  unescapeDecode : List Char → List Char
  charsetDecode : List Char → List Char
  lock2key : List Char → List Char
  dupConn : Bool

/-- `nmdc_cc_slots_in_use()`: the number of open connections whose transport
still has bytes left to stream — even transfers that did not require a slot
are counted, so the result can exceed the configured slot count. -/
def nmdc_cc_slots_in_use (fileLeft : List Nat) : Nat :=
  (fileLeft.filter (fun x => x ≠ 0)).length

/-- `if(bytes < 0 || bytes > st.st_size - start) bytes = st.st_size - start`. -/
def clampBytes (size start : Nat) (bytes : Int) : Int :=
  if bytes < 0 ∨ bytes > (size : Int) - (start : Int) then (size : Int) - (start : Int)
  else bytes

/-- `err->code`: 0 for a generic error (sent as `$Error <msg>`), nonzero for
"no slots" (sent as `$MaxedOut`). -/
structure AdcErr where
  code : Nat
  msg : List Char
deriving Repr, DecidableEq

def headIsSlash : List Char → Bool
  | '/' :: _ => true
  | _ => false

/-- The identifier-resolution block of `handle_adcget` for `type=file`
(`nmdc_cc.c` lines 182–209): `files.xml.bz2` maps to the own file-list file
and needs no slot; an identifier starting with `/` is resolved as a virtual
path in the local share (if the share exists and the id is valid UTF-8); a
39-character `TTH/` reference goes through the TTH index, first match wins.
A found node is mapped to its disk path by `localPath`, which can fail.
Returns the resolved path (if any) and the initial `needslot` flag. -/
def resolveFileId (env : Env) (id : List Char) : Option (List Char) × Bool :=
  if id = filesXmlStr then (some env.flLocalListFile, false)
  else
    let f : Option FlList :=
      if headIsSlash id && env.flLocalList.isSome && env.utf8valid id then
        match env.flLocalList with
        | some root => fl_list_from_path root id
        | none => none
      else if id.take 4 = tthSlashStr ∧ id.length = 4 + 39 then
        (env.tthIndex (env.base32decode (id.drop 4))).head?
      else none
    match f with
    | some fn => (env.localPath fn, true)
    | none => (none, true)

/-- `handle_adcget(cc, type, id, start, bytes, err)`: the `tthl` branch
validates the `TTH/<39 chars>` shape with `start=0, bytes=-1` and serves the
stored hash-tree blob; the `file` branch resolves the identifier, validates
`stat`/regularity/offset, clamps the byte count, drops the slot requirement
for files under 16 KiB, and either streams the range or reports "no slots".
Returns the emitted transport actions and the error, exactly one of which is
present on the error paths (the caller turns the error into a reply frame).
The transfer bookkeeping on `cc` (`last_file` etc.) is not modelled. -/
def handle_adcget (env : Env) (typ id : List Char) (start : Nat) (bytes : Int) :
    List OutAct × Option AdcErr :=
  if typ = tthlStr then
    if ¬(id.take 4 = tthSlashStr) ∨ id.length ≠ 4 + 39 ∨ start ≠ 0 ∨ bytes ≠ -1 then
      ([], some ⟨0, invalidArgsMsg⟩)
    else
      match env.hashdat (env.base32decode (id.drop 4)) with
      | none => ([], some ⟨0, fnaMsg⟩)
      | some dat => ([.send (.adcsnd tthlStr id 0 (dat.length : Int)), .sendRaw dat], none)
  else if typ ≠ fileStr then ([], some ⟨0, unsupportedMsg⟩)
  else
    let pr := resolveFileId env id
    match pr.1 with
    | none => ([], some ⟨0, fnaMsg⟩)
    | some path =>
      match env.statFs path with
      | none => ([], some ⟨0, fnaMsg⟩)
      | some st =>
        if ¬ st.isReg ∨ start > st.size then ([], some ⟨0, fnaMsg⟩)
        else
          let bytes2 := clampBytes st.size start bytes
          let needslot := pr.2 && !decide (st.size < 16 * 1024)
          if !needslot || decide (nmdc_cc_slots_in_use env.ccFileLeft < env.confSlots) then
            ([.send (.adcsnd typ (adc_escape id) start bytes2),
              .sendFileRange path start bytes2], none)
          else ([], some ⟨1, noSlotsMsg⟩)

/-- The reply as seen on the wire: the actions of `handle_adcget` followed by
the error mapping of `handle_cmd` (`nmdc_cc.c` lines 349–355): a code-0 error
becomes `$Error <msg>`, any other becomes `$MaxedOut`. -/
def adcget_reply (env : Env) (typ id : List Char) (start : Nat) (bytes : Int) : List OutAct :=
  let r := handle_adcget env typ id start bytes
  r.1 ++ (match r.2 with
    | none => []
    | some e => [.send (if e.code = 0 then .error e.msg else .maxedOut)])

/-- `struct nmdc_cc`, reduced to the handshake-relevant state: the hub
back-reference (its roster), the peer nick in both encodings, the last error
and whether `nmdc_cc_disconnect` has been called. -/
structure CCState where
  hub : Option Roster
  nick_raw : Option (List Char) := none
  nick : Option (List Char) := none
  err : Option (List Char) := none
  disconnected : Bool := false
deriving Repr, DecidableEq

/-- `nmdc_cc_create(hub)`: fresh zeroed state with the hub reference. -/
def nmdc_cc_create (hub : Option Roster) : CCState := { hub := hub }

/-- `nmdc_cc_disconnect` (the 30-second deferred-free timer is outside this
model). -/
def nmdc_cc_disconnect (cc : CCState) : CCState := { cc with disconnected := true }

/-- A command frame on the C↔C connection, already classified by the anchored
regexes of `handle_cmd` (`$MyNick`, `$Lock`, `$Supports`, `$ADCGET`; `other`
stands for any frame matching none of them). -/
inductive CCmd where
  | mynick (nm : List Char)
  | lockc (lk : List Char)
  | supportsc (lst : List Char)
  | adcget (typ id : List Char) (start : Nat) (bytes : Int)
  | other
deriving Repr, DecidableEq

def CCmd.isMynick : CCmd → Bool
  | .mynick _ => true
  | _ => false

/-- `handle_mynick`: ignore a duplicate `$MyNick`; require a hub reference;
require the user on the hub roster; reject a second connection from the same
user (`dupConn` abstracts the scan of the global connection list). -/
def handle_mynick (env : Env) (cc : CCState) (nm : List Char) : CCState :=
  if cc.nick.isSome then cc
  else
    match cc.hub with
    | none => nmdc_cc_disconnect cc
    | some users =>
      match List.lookup nm users with
      | none => nmdc_cc_disconnect { cc with err := some userNotOnHubMsg }
      | some u =>
        let cc2 := { cc with nick_raw := some nm, nick := some u.name }
        if env.dupConn then nmdc_cc_disconnect { cc2 with err := some tooManyConnMsg }
        else cc2

/-- `handle_cmd` of `nmdc_cc.c`: clear the previous error, then dispatch on
the (anchored, hence mutually exclusive) command regexes.  Returns the new
session state and the emitted transport actions. -/
def cc_handle_cmd (env : Env) (cc0 : CCState) (c : CCmd) : CCState × List OutAct :=
  let cc := { cc0 with err := none }
  match c with
  | .mynick nm => (handle_mynick env cc nm, [])
  | .lockc lk =>
    if lk.take 16 ≠ extendedStr then
      (nmdc_cc_disconnect { cc with err := some noAdcgetSupportMsg }, [])
    else
      (cc, [.send .supportsReply, .send .direction, .send (.key (env.lock2key lk))])
  | .supportsc lst =>
    if ¬ hasInfix "ADCGet".toList lst then
      (nmdc_cc_disconnect { cc with err := some noAdcgetSupportMsg }, [])
    else (cc, [])
  | .adcget typ id start bytes =>
    let unid := adc_unescape id
    if cc.nick = none then
      (nmdc_cc_disconnect { cc with err := some beforeMyNickMsg }, [])
    else
      match unid with
      | none => (cc, [])
      | some uid =>
        let r := handle_adcget env typ uid start bytes
        match r.2 with
        | none => (cc, r.1)
        | some e =>
          ({ cc with err := some e.msg },
            r.1 ++ [.send (if e.code = 0 then .error e.msg else .maxedOut)])
  | .other => (cc, [])

/-- Source-ordered delivery of a frame sequence to one C↔C session. -/
def processCmds (env : Env) : CCState → List CCmd → CCState
  | cc, [] => cc
  | cc, c :: rest => processCmds env (cc_handle_cmd env cc c).1 rest

/-! ### The legacy `$Search` handler (`nmdc_search`, `hub.c`) -/

/-- `g_strsplit(str, " ", 0)`: split at each space, keeping empty tokens. -/
def splitSpace : List Char → List (List Char)
  | [] => [[]]
  | ' ' :: rest => [] :: splitSpace rest
  | c :: rest =>
    match splitSpace rest with
    | [] => [[c]]
    | x :: xs => (c :: x) :: xs

def tthColonStr : List Char := "TTH:".toList
def hubColonStr : List Char := "Hub:".toList

/-- `nmdc_search(hub, from, size_m, size, type, query)`, up to the collected
result list (`res[0..i)`); the handler then emits one `$SR` per collected
node.  `max` is 5 when the source starts with `H` (a `Hub:` source, by the
`$Search` regex) and 10 otherwise.  Type 9 is the TTH lookup; any other type
turns `$` into spaces, unescapes/decodes the query, splits it into include
terms and runs `fl_list_search` over the local share. -/
def nmdc_search (env : Env) (frm : List Char) (size_m : Int) (sz : Nat) (typ : Nat)
    (query : List Char) : List FlList :=
  let mx := if frm.head? = some 'H' then 5 else 10
  let filedir := if typ = 1 then 3 else if typ = 8 then 2 else 1
  let ext := exts (typ - 1)
  if typ = 9 then
    if ¬(query.take 4 = tthColonStr ∧ query.length = 4 + 39) then []
    else collectTth size_m sz filedir ext mx (env.tthIndex (env.base32decode (query.drop 4)))
  else
    let q2 := query.map (fun c => if c = '$' then ' ' else c)
    let inc := splitSpace (env.unescapeDecode q2)
    match env.flLocalList with
    | none => []
    | some root => fl_list_search root size_m sz filedir ext inc mx

/-! ### Tree invariants and operation sequences (I2, claim C8) -/

def childSizes (l : List FlList) : Nat := (l.map FlList.size).sum

mutual

/-- Invariant I2 in `guint64` arithmetic: every stored size is a 64-bit
value, and every directory's size is the sum of its children's sizes reduced
modulo `2 ^ 64`. -/
def sizeInv : FlList → Prop
  | .file _ sz _ _ => sz < 2 ^ 64
  | .dir _ sz _ _ sub => sz < 2 ^ 64 ∧ sz = childSizes sub % 2 ^ 64 ∧ sizeInvList sub

def sizeInvList : List FlList → Prop
  | [] => True
  | c :: cs => sizeInv c ∧ sizeInvList cs

end

/-- One mutation of the shared tree: `fl_list_add` of a node under the
directory at `path`, or `fl_list_remove` of the node at `path`. -/
inductive FlOp where
  | addOp (path : List (List Char)) (node : FlList)
  | rmOp (path : List (List Char))

def applyOp (t : FlList) : FlOp → Option FlList
  | .addOp p n => fl_list_add t p n
  | .rmOp p => (fl_list_remove t p).map (fun r => r.1)

def applyOps : FlList → List FlOp → Option FlList
  | t, [] => some t
  | t, op :: rest =>
    match applyOp t op with
    | none => none
    | some t2 => applyOps t2 rest

/-- An operation is admissible when any inserted node is internally
consistent (a fresh file or empty directory trivially is). -/
def FlOp.ok : FlOp → Prop
  | .addOp _ n => sizeInv n
  | .rmOp _ => True

/-! ### Reachability and name discipline (claim C9) -/

/-- `Chain t p n`: starting at `t` and stepping to a child of the given name
at each element of `p` reaches the node `n`; `p` is exactly the root-to-node
name path that `fl_list_path` renders. -/
inductive Chain : FlList → List (List Char) → FlList → Prop where
  | refl (t : FlList) : Chain t [] t
  | step {t c n : FlList} {nm : List Char} {p : List (List Char)} :
      c ∈ t.sub → c.name = some nm → Chain c p n → Chain t (nm :: p) n

mutual

/-- The hypothesis of claim C9 as stated: sibling names are unique at every
directory. -/
def uniqNames : FlList → Prop
  | .file _ _ _ _ => True
  | .dir _ _ _ _ sub => (sub.map FlList.name).Nodup ∧ uniqNamesList sub

def uniqNamesList : List FlList → Prop
  | [] => True
  | c :: cs => uniqNames c ∧ uniqNamesList cs

end

mutual

/-- Sibling names unique, and every non-root name present, nonempty and free
of `/` — the discipline under which the rendered path parses back. -/
def wfNames : FlList → Prop
  | .file _ _ _ _ => True
  | .dir _ _ _ _ sub => (sub.map FlList.name).Nodup ∧ wfNamesList sub

def wfNamesList : List FlList → Prop
  | [] => True
  | c :: cs => (∃ nm, c.name = some nm ∧ nm ≠ [] ∧ '/' ∉ nm) ∧ wfNames c ∧ wfNamesList cs

end

/-! ### Concrete instances used by witnesses -/

/-- An environment with nothing shared, no stored blobs and trivial bridges;
witnesses override individual fields. -/
def nullEnv : Env := {
  flLocalList := none,
  flLocalListFile := [],
  localPath := fun _ => none,
  tthIndex := fun _ => [],
  hashdat := fun _ => none,
  base32decode := fun _ => [],
  statFs := fun _ => none,
  ccFileLeft := [],
  confSlots := 1,
  utf8valid := fun _ => true,
  unescapeDecode := fun s => s,
  charsetDecode := fun s => s,
  lock2key := fun s => s,
  dupConn := false }

def bobUser : HubUser := { isop := true, name := "bob".toList, name_hub := some "bob".toList }

/-! ### Claim theorems -/

/-- C1: processing a modern-protocol `BINF` frame carrying `SL2` and `AS1024`
leaves the user with `slots = 0` and `auto_slot_bps = 0` — the `AS` case of
`user_adc_nfo` (hub.c line 335) writes the parsed value into `slots`
(truncated to `unsigned char`, and 1024 mod 256 = 0) instead of into `as`,
so the `AS` field clobbers the value the `SL` field had stored and the
`auto_slot_bps` field never receives it, contrary to the claim. -/
theorem c1_as_field_clobbers_slots :
    (user_adc_nfo (fun _ => []) {} 1 ["SL2".toList, "AS1024".toList]).slots = 0 ∧
    (user_adc_nfo (fun _ => []) {} 1 ["SL2".toList, "AS1024".toList]).as = 0 ∧
    (user_adc_nfo (fun _ => []) {} 1 ["SL2".toList]).slots = 2 := by
  decide

/-- C2: after the `$OpList` handler processes the frame body `alice` on a
roster in which `bob` already carries `is_op`, `bob` still carries `is_op`
even though his name is not in the frame — the handler only sets flags for
listed users and never clears the others, contrary to the claim. -/
theorem c2_oplist_keeps_stale_isop :
    (List.lookup "bob".toList
        (nmdc_oplist (fun s => s) "me".toList [("bob".toList, bobUser)]
          "alice".toList).1).map HubUser.isop = some true ∧
    (List.lookup "alice".toList
        (nmdc_oplist (fun s => s) "me".toList [("bob".toList, bobUser)]
          "alice".toList).1).map HubUser.isop = some true := by
  decide

theorem resolveFileId_needslot (env : Env) (id : List Char) :
    (resolveFileId env id).2 = true ↔ id ≠ filesXmlStr := by
  by_cases h : id = filesXmlStr
  · simp [resolveFileId, h]
  · simp only [resolveFileId, if_neg h]
    constructor
    · exact fun _ => h
    · intro _
      split
      · rfl
      · rfl

theorem handle_adcget_file_unresolved (env : Env) (id : List Char) (start : Nat) (bytes : Int)
    (hres : (resolveFileId env id).1 = none) :
    handle_adcget env fileStr id start bytes = ([], some ⟨0, fnaMsg⟩) := by
  unfold handle_adcget
  rw [if_neg (by decide), if_neg (by simp)]
  simp only [hres]

theorem handle_adcget_file_nostat (env : Env) (id : List Char) (start : Nat) (bytes : Int)
    (p : List Char) (hres : (resolveFileId env id).1 = some p)
    (hstat : env.statFs p = none) :
    handle_adcget env fileStr id start bytes = ([], some ⟨0, fnaMsg⟩) := by
  unfold handle_adcget
  rw [if_neg (by decide), if_neg (by simp)]
  simp only [hres, hstat]

theorem handle_adcget_file_badstat (env : Env) (id : List Char) (start : Nat) (bytes : Int)
    (p : List Char) (st : StatRec) (hres : (resolveFileId env id).1 = some p)
    (hstat : env.statFs p = some st) (hbad : st.isReg = false ∨ st.size < start) :
    handle_adcget env fileStr id start bytes = ([], some ⟨0, fnaMsg⟩) := by
  unfold handle_adcget
  rw [if_neg (by decide), if_neg (by simp)]
  simp only [hres, hstat]
  rw [if_pos]
  rcases hbad with h | h
  · exact Or.inl (by simp [h])
  · exact Or.inr (by omega)

theorem handle_adcget_file_ok (env : Env) (id : List Char) (start : Nat) (bytes : Int)
    (p : List Char) (st : StatRec) (hres : (resolveFileId env id).1 = some p)
    (hstat : env.statFs p = some st) (hreg : st.isReg = true) (hstart : start ≤ st.size) :
    handle_adcget env fileStr id start bytes =
      if (!((resolveFileId env id).2 && !decide (st.size < 16 * 1024))
          || decide (nmdc_cc_slots_in_use env.ccFileLeft < env.confSlots)) = true then
        ([.send (.adcsnd fileStr (adc_escape id) start (clampBytes st.size start bytes)),
          .sendFileRange p start (clampBytes st.size start bytes)], none)
      else ([], some ⟨1, noSlotsMsg⟩) := by
  unfold handle_adcget
  rw [if_neg (by decide), if_neg (by simp)]
  simp only [hres, hstat]
  rw [if_neg (by simp [hreg]; omega)]

/-- C3: on a `file` request that resolves to a stat-able regular file with a
valid offset, the reply is `$MaxedOut` exactly when the file is at least
16 KiB, the identifier is not `files.xml.bz2`, and at least as many slots
are in use as are configured; and when the file is under 16 KiB or is the
own file list, the file range is served even with every configured slot in
use. -/
theorem c3_slot_policy (env : Env) (id : List Char) (start : Nat) (bytes : Int)
    (p : List Char) (st : StatRec)
    (hres : (resolveFileId env id).1 = some p)
    (hstat : env.statFs p = some st)
    (hreg : st.isReg = true)
    (hstart : start ≤ st.size) :
    (adcget_reply env fileStr id start bytes = [.send .maxedOut]
      ↔ (16 * 1024 ≤ st.size ∧ id ≠ filesXmlStr ∧
          env.confSlots ≤ nmdc_cc_slots_in_use env.ccFileLeft)) ∧
    ((st.size < 16 * 1024 ∨ id = filesXmlStr) →
      adcget_reply env fileStr id start bytes
        = [.send (.adcsnd fileStr (adc_escape id) start (clampBytes st.size start bytes)),
            .sendFileRange p start (clampBytes st.size start bytes)]) := by
  have hkey := handle_adcget_file_ok env id start bytes p st hres hstat hreg hstart
  by_cases hadm : (!((resolveFileId env id).2 && !decide (st.size < 16 * 1024))
      || decide (nmdc_cc_slots_in_use env.ccFileLeft < env.confSlots)) = true
  · rw [if_pos hadm] at hkey
    have hreply : adcget_reply env fileStr id start bytes
        = [.send (.adcsnd fileStr (adc_escape id) start (clampBytes st.size start bytes)),
            .sendFileRange p start (clampBytes st.size start bytes)] := by
      simp [adcget_reply, hkey]
    constructor
    · rw [hreply]
      constructor
      · intro h; exact absurd h (by simp)
      · rintro ⟨h1, h2, h3⟩
        rw [Bool.or_eq_true, Bool.not_eq_true', Bool.and_eq_false_iff] at hadm
        rcases hadm with (h4 | h4) | h4
        · rw [← Bool.not_eq_true] at h4
          rw [resolveFileId_needslot] at h4
          exact absurd h2 (by simpa using h4)
        · simp only [Bool.not_eq_false', decide_eq_true_eq] at h4
          omega
        · simp only [decide_eq_true_eq] at h4
          omega
    · intro _; exact hreply
  · rw [if_neg hadm] at hkey
    have hreply : adcget_reply env fileStr id start bytes = [.send .maxedOut] := by
      simp [adcget_reply, hkey]
    constructor
    · rw [hreply]
      constructor
      · intro _
        rw [Bool.or_eq_true, not_or] at hadm
        obtain ⟨h1, h2⟩ := hadm
        have h1b : ((resolveFileId env id).2 && !decide (st.size < 16 * 1024)) = true := by
          cases hb : ((resolveFileId env id).2 && !decide (st.size < 16 * 1024)) with
          | false => exact absurd (by simp [hb]) h1
          | true => rfl
        rw [Bool.and_eq_true] at h1b
        obtain ⟨hpr, hsz⟩ := h1b
        have hsz2 : 16 * 1024 ≤ st.size := by
          rcases Nat.lt_or_ge st.size (16 * 1024) with h | h
          · exact absurd hsz (by simp [h])
          · exact h
        have hid : id ≠ filesXmlStr := (resolveFileId_needslot env id).mp hpr
        have hcs : env.confSlots ≤ nmdc_cc_slots_in_use env.ccFileLeft := by
          rcases Nat.lt_or_ge (nmdc_cc_slots_in_use env.ccFileLeft) env.confSlots with h | h
          · exact absurd (by simp [h]) h2
          · exact h
        exact ⟨hsz2, hid, hcs⟩
      · intro _; rfl
    · rintro (h | h)
      · exfalso
        apply hadm
        simp [h]
      · exfalso
        apply hadm
        have : (resolveFileId env id).2 = false := by
          rcases Bool.eq_false_or_eq_true (resolveFileId env id).2 with hb | hb
          · exact absurd ((resolveFileId_needslot env id).mp hb) (by simp [h])
          · exact hb
        simp [this]

/-- A 43-character `TTH/…` identifier used by concrete requests. -/
def tthAId : List Char := "TTH/".toList ++ List.replicate 39 'A'

/-- A shared 100-byte file reachable through the TTH index. -/
def smallFileNode : FlList := FlList.file (some "s".toList) 100 [] true

/-- A shared 20000-byte file reachable through the TTH index. -/
def bigFileNode : FlList := FlList.file (some "big".toList) 20000 [] true

/-- Environment: the small file on disk, one configured slot, one transfer
already streaming (slots full). -/
def envSmallFull : Env := { nullEnv with
  tthIndex := fun _ => [smallFileNode],
  localPath := fun _ => some "/d/s".toList,
  statFs := fun _ => some ⟨100, true⟩,
  ccFileLeft := [5],
  confSlots := 1 }

/-- Environment: the big file on disk, one configured slot, one transfer
already streaming (slots full). -/
def envBigFull : Env := { nullEnv with
  tthIndex := fun _ => [bigFileNode],
  localPath := fun _ => some "/d/big".toList,
  statFs := fun _ => some ⟨20000, true⟩,
  ccFileLeft := [5],
  confSlots := 1 }

/-- Environment: the big file on disk, one configured slot, none in use. -/
def envBigFree : Env := { nullEnv with
  tthIndex := fun _ => [bigFileNode],
  localPath := fun _ => some "/d/big".toList,
  statFs := fun _ => some ⟨20000, true⟩,
  ccFileLeft := [],
  confSlots := 1 }

/-- C3 witness: a 100-byte file is served in full even though the only
configured slot is taken by a running transfer. -/
theorem c3_slot_policy_witness :
    adcget_reply envSmallFull fileStr tthAId 0 (-1)
      = [.send (.adcsnd fileStr (adc_escape tthAId) 0 (clampBytes 100 0 (-1))),
          .sendFileRange "/d/s".toList 0 (clampBytes 100 0 (-1))] :=
  (c3_slot_policy envSmallFull tthAId 0 (-1) "/d/s".toList ⟨100, true⟩ (by decide)
    (by decide) (by decide) (by decide)).2 (Or.inl (by decide))

/-- C4 (counterexample): a request for a resolvable 20000-byte regular file
with a valid offset is answered `$MaxedOut` — not with the `$ADCSND` frame
and the byte stream the claim promises — because the file needs a slot and
every configured slot is in use.  The claim's "otherwise" clause omits the
slot admission. -/
theorem c4_counterexample :
    (resolveFileId envBigFull tthAId).1 = some "/d/big".toList ∧
    envBigFull.statFs "/d/big".toList = some ⟨20000, true⟩ ∧
    adcget_reply envBigFull fileStr tthAId 0 (-1) = [.send .maxedOut] ∧
    adcget_reply envBigFull fileStr tthAId 0 (-1)
      ≠ [.send (.adcsnd fileStr (adc_escape tthAId) 0 (clampBytes 20000 0 (-1))),
          .sendFileRange "/d/big".toList 0 (clampBytes 20000 0 (-1))] := by
  decide

/-- C4 (amended): an unresolvable identifier, a failing `stat`, a
non-regular file or an offset beyond the size is answered `$Error File Not
Available`; otherwise, *provided the transfer is admitted* (the file is
under 16 KiB, or it is the own file list, or a slot is free), a negative or
over-long byte count is clamped to `size − start` and the reply is
`$ADCSND file <escaped id> <start> <clamped>` followed by streaming exactly
that range of the file. -/
theorem c4_file_request (env : Env) (id : List Char) (start : Nat) (bytes : Int) :
    ((resolveFileId env id).1 = none →
      adcget_reply env fileStr id start bytes = [.send (.error fnaMsg)]) ∧
    (∀ p, (resolveFileId env id).1 = some p →
      (env.statFs p = none →
        adcget_reply env fileStr id start bytes = [.send (.error fnaMsg)]) ∧
      (∀ st : StatRec, env.statFs p = some st →
        ((st.isReg = false ∨ st.size < start) →
          adcget_reply env fileStr id start bytes = [.send (.error fnaMsg)]) ∧
        (st.isReg = true → start ≤ st.size →
          (st.size < 16 * 1024 ∨ id = filesXmlStr ∨
            nmdc_cc_slots_in_use env.ccFileLeft < env.confSlots) →
          adcget_reply env fileStr id start bytes
            = [.send (.adcsnd fileStr (adc_escape id) start (clampBytes st.size start bytes)),
                .sendFileRange p start (clampBytes st.size start bytes)]))) := by
  refine ⟨?_, ?_⟩
  · intro hres
    simp [adcget_reply, handle_adcget_file_unresolved env id start bytes hres]
  · intro p hres
    refine ⟨?_, ?_⟩
    · intro hstat
      simp [adcget_reply, handle_adcget_file_nostat env id start bytes p hres hstat]
    · intro st hstat
      refine ⟨?_, ?_⟩
      · intro hbad
        simp [adcget_reply, handle_adcget_file_badstat env id start bytes p st hres hstat hbad]
      · intro hreg hstart hadm
        have hkey := handle_adcget_file_ok env id start bytes p st hres hstat hreg hstart
        have hcond : (!((resolveFileId env id).2 && !decide (st.size < 16 * 1024))
            || decide (nmdc_cc_slots_in_use env.ccFileLeft < env.confSlots)) = true := by
          rcases hadm with h | h | h
          · simp [h]
          · have hf : (resolveFileId env id).2 = false := by
              rcases Bool.eq_false_or_eq_true (resolveFileId env id).2 with hb | hb
              · exact absurd ((resolveFileId_needslot env id).mp hb) (by simp [h])
              · exact hb
            simp [hf]
          · simp [h]
        rw [if_pos hcond] at hkey
        simp [adcget_reply, hkey]

/-- C4 witness: requesting 50 bytes at offset 100 of the 20000-byte file
with a free slot yields `$ADCSND file <id> 100 50` and the 50-byte stream
(the spec's test 3). -/
theorem c4_file_request_witness :
    adcget_reply envBigFree fileStr tthAId 100 50
      = [.send (.adcsnd fileStr (adc_escape tthAId) 100 (clampBytes 20000 100 50)),
          .sendFileRange "/d/big".toList 100 (clampBytes 20000 100 50)] :=
  ((((c4_file_request envBigFree tthAId 100 50).2 "/d/big".toList (by decide)).2
      ⟨20000, true⟩ (by decide)).2 (by decide) (by decide)
    (Or.inr (Or.inr (by decide))))

/-- C5: an `$ADCGET tthl` request whose identifier is not `TTH/` followed by
39 characters, or whose start is nonzero, or whose byte count is not `-1`,
is answered with `$Error Invalid ADCGET arguments`; a well-formed request is
answered with `$ADCSND tthl <id> 0 <len>` followed by the raw stored blob of
exactly `len` bytes when a hash-tree blob is stored for the decoded root,
and with `$Error File Not Available` otherwise. -/
theorem c5_tthl_policy (env : Env) (id : List Char) (start : Nat) (bytes : Int) :
    (¬(id.take 4 = tthSlashStr ∧ id.length = 4 + 39 ∧ start = 0 ∧ bytes = -1) →
      adcget_reply env tthlStr id start bytes = [.send (.error invalidArgsMsg)]) ∧
    (id.take 4 = tthSlashStr → id.length = 4 + 39 → start = 0 → bytes = -1 →
      (∀ dat, env.hashdat (env.base32decode (id.drop 4)) = some dat →
        adcget_reply env tthlStr id start bytes
          = [.send (.adcsnd tthlStr id 0 (dat.length : Int)), .sendRaw dat]) ∧
      (env.hashdat (env.base32decode (id.drop 4)) = none →
        adcget_reply env tthlStr id start bytes = [.send (.error fnaMsg)])) := by
  constructor
  · intro h
    have hguard : ¬(id.take 4 = tthSlashStr) ∨ id.length ≠ 4 + 39 ∨ start ≠ 0 ∨ bytes ≠ -1 := by
      tauto
    simp only [adcget_reply, handle_adcget, if_pos rfl, if_pos hguard]
    simp
  · intro h1 h2 h3 h4
    have hguard : ¬(¬(id.take 4 = tthSlashStr) ∨ id.length ≠ 4 + 39 ∨ start ≠ 0 ∨ bytes ≠ -1) := by
      simp [h1, h2, h3, h4]
    constructor
    · intro dat hdat
      simp only [adcget_reply, handle_adcget, if_pos rfl, if_neg hguard, hdat]
      simp
    · intro hdat
      simp only [adcget_reply, handle_adcget, if_pos rfl, if_neg hguard, hdat]
      simp

/-- C5 witness: on a concrete environment storing a 3-byte blob for the
decoded root, the well-formed request is served and the two malformed
variants are rejected. -/
theorem c5_tthl_policy_witness :
    adcget_reply { nullEnv with hashdat := fun _ => some [7, 8, 9] }
        tthlStr ("TTH/".toList ++ List.replicate 39 'A') 0 (-1)
      = [.send (.adcsnd tthlStr ("TTH/".toList ++ List.replicate 39 'A') 0 3),
          .sendRaw [7, 8, 9]] ∧
    adcget_reply { nullEnv with hashdat := fun _ => some [7, 8, 9] }
        tthlStr ("TTH/".toList ++ List.replicate 39 'A') 5 (-1)
      = [.send (.error invalidArgsMsg)] := by
  constructor
  · exact ((c5_tthl_policy _ _ 0 (-1)).2 (by decide) (by decide) rfl rfl).1 [7, 8, 9] rfl
  · exact (c5_tthl_policy _ _ 5 (-1)).1 (by decide)

/-- C6: on a C↔C session that has processed any sequence of frames containing
no `$MyNick`, an arriving `$ADCGET` sets the session's last error to the
"Received $ADCGET before $MyNick" diagnostic and disconnects without sending
anything. -/
theorem c6_adcget_before_mynick (env : Env) (hub : Option Roster) (cmds : List CCmd)
    (typ id : List Char) (start : Nat) (bytes : Int)
    (hno : ∀ c ∈ cmds, c.isMynick = false) :
    (cc_handle_cmd env (processCmds env (nmdc_cc_create hub) cmds)
        (.adcget typ id start bytes)).1.err = some beforeMyNickMsg ∧
    (cc_handle_cmd env (processCmds env (nmdc_cc_create hub) cmds)
        (.adcget typ id start bytes)).1.disconnected = true ∧
    (cc_handle_cmd env (processCmds env (nmdc_cc_create hub) cmds)
        (.adcget typ id start bytes)).2 = [] := by
  have hnick : ∀ (cmds2 : List CCmd) (cc : CCState), cc.nick = none →
      (∀ c ∈ cmds2, c.isMynick = false) → (processCmds env cc cmds2).nick = none := by
    intro cmds2
    induction cmds2 with
    | nil => intro cc h _; exact h
    | cons c rest ih =>
      intro cc h hall
      have hc : c.isMynick = false := hall c (by simp)
      have hrest : ∀ c2 ∈ rest, c2.isMynick = false := fun c2 hm => hall c2 (by simp [hm])
      refine ih _ ?_ hrest
      cases c with
      | mynick nm => simp [CCmd.isMynick] at hc
      | lockc lk =>
        simp only [cc_handle_cmd]
        split <;> simp [nmdc_cc_disconnect, h]
      | supportsc lst =>
        simp only [cc_handle_cmd]
        split <;> simp [nmdc_cc_disconnect, h]
      | adcget t i s b =>
        simp only [cc_handle_cmd]
        rw [if_pos (by simp [h])]
        simp [nmdc_cc_disconnect, h]
      | other => simp [cc_handle_cmd, h]
  have h0 : (processCmds env (nmdc_cc_create hub) cmds).nick = none :=
    hnick cmds _ rfl hno
  simp only [cc_handle_cmd]
  rw [if_pos (by simp [h0])]
  simp [nmdc_cc_disconnect]

/-- C6 witness: a fresh session that has processed a `$Lock` and a
`$Supports` and then receives `$ADCGET file /x 0 -1` records the diagnostic,
disconnects, and emits nothing. -/
theorem c6_adcget_before_mynick_witness :
    (cc_handle_cmd nullEnv
        (processCmds nullEnv (nmdc_cc_create none)
          [.lockc ("EXTENDEDPROTOCOL/wut?".toList), .supportsc ("ADCGet TTHL".toList)])
        (.adcget fileStr "/x".toList 0 (-1))).1.err = some beforeMyNickMsg := by
  exact (c6_adcget_before_mynick nullEnv none
    [.lockc ("EXTENDEDPROTOCOL/wut?".toList), .supportsc ("ADCGet TTHL".toList)]
    fileStr "/x".toList 0 (-1) (by decide)).1

theorem search_length_le_aux :
    ∀ k : Nat,
      (∀ (parent : FlList) (size_m : Int) (s : Nat) (filedir : Nat)
          (ext inc : List (List Char)) (mx : Nat), sizeOf parent ≤ k →
          (fl_list_search parent size_m s filedir ext inc mx).length ≤ mx) ∧
      (∀ (l : List FlList) (size_m : Int) (s : Nat) (filedir : Nat)
          (ext ninc : List (List Char)) (mx : Nat), sizeOf l ≤ k →
          (searchLoop size_m s filedir ext ninc mx l).length ≤ mx) := by
  intro k
  induction k using Nat.strong_induction_on with
  | _ k IH =>
    constructor
    · intro parent size_m s filedir ext inc mx hsz
      cases parent with
      | file n sz t h => rw [fl_list_search.eq_def]; simp
      | dir nm sz ht inc2 sub =>
        rw [fl_list_search.eq_def]
        have hlt : sizeOf sub < k := by
          have : sizeOf sub < sizeOf (FlList.dir nm sz ht inc2 sub) := by
            simp only [FlList.dir.sizeOf_spec]
            omega
          omega
        exact (IH (sizeOf sub) hlt).2 sub size_m s filedir ext _ mx le_rfl
    · intro l size_m s filedir ext ninc mx hsz
      cases l with
      | nil => rw [searchLoop.eq_def]; simp
      | cons n rest =>
        cases mx with
        | zero => rw [searchLoop.eq_def]; simp
        | succ m =>
          rw [searchLoop.eq_def]
          simp only [List.length_append]
          have hn : sizeOf n < k := by
            have : sizeOf n < sizeOf (n :: rest) := by
              simp only [List.cons.sizeOf_spec]
              omega
            omega
          have hrest : sizeOf rest < k := by
            have : sizeOf rest < sizeOf (n :: rest) := by
              simp only [List.cons.sizeOf_spec]
              omega
            omega
          have hr1 : (if fl_list_search_matches n size_m s filedir ext ninc = true
              then [n] else []).length ≤ 1 := by
            split <;> simp
          have hr2 : ∀ b1 : Nat,
              (if (!n.isfile && decide (0 < b1)) = true
                then fl_list_search n size_m s filedir ext ninc b1 else []).length ≤ b1 := by
            intro b1
            split
            · exact (IH (sizeOf n) hn).1 n size_m s filedir ext ninc b1 le_rfl
            · simp
          have hr3 : ∀ b2 : Nat,
              (searchLoop size_m s filedir ext ninc b2 rest).length ≤ b2 :=
            fun b2 => (IH (sizeOf rest) hrest).2 rest size_m s filedir ext ninc b2 le_rfl
          have h2 := hr2 (m + 1 -
            (if fl_list_search_matches n size_m s filedir ext ninc = true then [n] else []).length)
          have h3 := hr3 ((m + 1 -
            (if fl_list_search_matches n size_m s filedir ext ninc = true then [n] else []).length) -
            (if (!n.isfile && decide (0 < (m + 1 -
              (if fl_list_search_matches n size_m s filedir ext ninc = true
                then [n] else []).length))) = true
              then fl_list_search n size_m s filedir ext ninc (m + 1 -
                (if fl_list_search_matches n size_m s filedir ext ninc = true
                  then [n] else []).length)
              else []).length)
          omega

/-- Bound used by claim C7: `fl_list_search` never collects more than the
given maximum. -/
theorem fl_list_search_length_le (parent : FlList) (size_m : Int) (s : Nat) (filedir : Nat)
    (ext inc : List (List Char)) (mx : Nat) :
    (fl_list_search parent size_m s filedir ext inc mx).length ≤ mx :=
  (search_length_le_aux (sizeOf parent)).1 parent size_m s filedir ext inc mx le_rfl

theorem collectTth_length_le (size_m : Int) (s : Nat) (filedir : Nat)
    (ext : List (List Char)) :
    ∀ (l : List FlList) (mx : Nat), (collectTth size_m s filedir ext mx l).length ≤ mx := by
  intro l
  induction l with
  | nil => intro mx; simp [collectTth]
  | cons c rest ih =>
    intro mx
    cases mx with
    | zero => simp [collectTth]
    | succ m =>
      simp only [collectTth]
      by_cases hm : fl_list_search_matches c size_m s filedir ext [] = true
      · rw [if_pos hm]
        simpa using ih m
      · rw [if_neg hm]
        exact ih (m + 1)

/-- C7: the number of results a legacy `$Search` collects (one `$SR` reply is
emitted per result) is at most 5 when the search source begins with `Hub:`
and at most 10 in every case; and `fl_list_search` never returns more
results than the maximum it is given. -/
theorem c7_search_result_cap (env : Env) (frm : List Char) (size_m : Int) (sz : Nat)
    (typ : Nat) (query : List Char) :
    ((nmdc_search env frm size_m sz typ query).length ≤ 10 ∧
      (frm.take 4 = hubColonStr → (nmdc_search env frm size_m sz typ query).length ≤ 5)) ∧
    ∀ (parent : FlList) (size_m2 : Int) (s2 : Nat) (filedir : Nat)
      (ext inc : List (List Char)) (mx : Nat),
      (fl_list_search parent size_m2 s2 filedir ext inc mx).length ≤ mx := by
  have hb : ∀ (mx filedir : Nat) (ext : List (List Char)),
      (if typ = 9 then
        if ¬(query.take 4 = tthColonStr ∧ query.length = 4 + 39) then []
        else collectTth size_m sz filedir ext mx
          (env.tthIndex (env.base32decode (query.drop 4)))
      else
        match env.flLocalList with
        | none => []
        | some root =>
          fl_list_search root size_m sz filedir ext
            (splitSpace (env.unescapeDecode
              (query.map (fun c => if c = '$' then ' ' else c)))) mx).length ≤ mx := by
    intro mx filedir ext
    split
    · split
      · simp
      · exact collectTth_length_le _ _ _ _ _ _
    · split
      · simp
      · exact fl_list_search_length_le _ _ _ _ _ _ _
  have hbound : (nmdc_search env frm size_m sz typ query).length ≤
      (if frm.head? = some 'H' then 5 else 10) := by
    simp only [nmdc_search]
    exact hb _ _ _
  refine ⟨⟨?_, ?_⟩, fun parent size_m2 s2 filedir ext inc mx =>
    fl_list_search_length_le parent size_m2 s2 filedir ext inc mx⟩
  · refine le_trans hbound ?_
    split <;> omega
  · intro hhub
    have hH : frm.head? = some 'H' := by
      cases frm with
      | nil => simp [hubColonStr] at hhub
      | cons c rest =>
        have h5 : c = 'H' := by
          have h4 := hhub
          rw [show (4 : Nat) = 3 + 1 from rfl, List.take_succ_cons] at h4
          have h6 := congrArg List.head? h4
          simpa [hubColonStr] using h6
        simp [h5]
    rw [hH, if_pos rfl] at hbound
    exact hbound

/-- C7 witness: a concrete hub-sourced TTH search on the empty environment
collects at most 5 results. -/
theorem c7_search_result_cap_witness :
    (nmdc_search nullEnv "Hub:me".toList 0 0 9 "x".toList).length ≤ 5 :=
  (c7_search_result_cap nullEnv "Hub:me".toList 0 0 9 "x".toList).1.2 (by decide)

theorem wadd_lt (a b : Nat) : wadd a b < 2 ^ 64 := Nat.mod_lt _ (by norm_num)

theorem wsub_lt (a b : Nat) : wsub a b < 2 ^ 64 := Nat.mod_lt _ (by norm_num)

theorem sizeInv_size_lt {c : FlList} (h : sizeInv c) : c.size < 2 ^ 64 := by
  cases c with
  | file n sz t ht => simpa [sizeInv, FlList.size] using h
  | dir n sz ht inc sub =>
    simp only [sizeInv] at h
    simpa [FlList.size] using h.1

theorem childSizes_nil : childSizes [] = 0 := rfl

theorem childSizes_cons (c : FlList) (cs : List FlList) :
    childSizes (c :: cs) = c.size + childSizes cs := by
  simp [childSizes]

theorem childSizes_insert (cur : FlList) (l : List FlList) :
    childSizes (fl_list_insert cur l) = cur.size + childSizes l := by
  induction l with
  | nil => simp [fl_list_insert, childSizes]
  | cons c cs ih =>
    simp only [fl_list_insert]
    split
    · simp [childSizes_cons]
    · rw [childSizes_cons, ih, childSizes_cons]
      omega

theorem sizeInvList_insert {cur : FlList} (hcur : sizeInv cur) :
    ∀ {l : List FlList}, sizeInvList l → sizeInvList (fl_list_insert cur l) := by
  intro l
  induction l with
  | nil => intro _; simp [fl_list_insert, sizeInvList]; exact hcur
  | cons c cs ih =>
    intro hinv
    simp only [sizeInvList] at hinv
    simp only [fl_list_insert]
    split
    · simp only [sizeInvList]
      exact ⟨hcur, hinv⟩
    · simp only [sizeInvList]
      exact ⟨hinv.1, ih hinv.2⟩

theorem removeNamed_spec {d : List Char} :
    ∀ {l : List FlList} {c : FlList} {cs : List FlList},
      removeNamed d l = some (c, cs) →
      childSizes l = c.size + childSizes cs ∧
        (sizeInvList l → sizeInv c ∧ sizeInvList cs) := by
  intro l
  induction l with
  | nil => intro c cs h; simp [removeNamed] at h
  | cons x xs ih =>
    intro c cs h
    simp only [removeNamed] at h
    by_cases hd : x.name = some d
    · rw [if_pos hd] at h
      simp only [Option.some.injEq, Prod.mk.injEq] at h
      obtain ⟨h1, h2⟩ := h
      subst h1; subst h2
      refine ⟨childSizes_cons _ _, fun hinv => ?_⟩
      simp only [sizeInvList] at hinv
      exact hinv
    · rw [if_neg hd] at h
      cases hr : removeNamed d xs with
      | none => rw [hr] at h; simp at h
      | some p =>
        rw [hr] at h
        simp only [Option.map_some', Option.some.injEq, Prod.mk.injEq] at h
        obtain ⟨h1, h2⟩ := h
        obtain ⟨hsz, hinv⟩ := ih hr
        subst h1
        refine ⟨?_, fun hl => ?_⟩
        · rw [← h2, childSizes_cons, childSizes_cons, hsz]
          omega
        · simp only [sizeInvList] at hl
          obtain ⟨hx, hxs⟩ := hl
          obtain ⟨hc, hcs⟩ := hinv hxs
          rw [← h2]
          exact ⟨hc, by simp only [sizeInvList]; exact ⟨hx, hcs⟩⟩

theorem updateNamed_sizes {g : FlList → Option FlList} {δ : Nat}
    (hg : ∀ c c2, sizeInv c → g c = some c2 →
      sizeInv c2 ∧ c2.size = wadd c.size δ) :
    ∀ {l l2 : List FlList} {d : List Char}, sizeInvList l →
      updateNamed d g l = some l2 →
      sizeInvList l2 ∧ childSizes l2 % 2 ^ 64 = (childSizes l + δ) % 2 ^ 64 := by
  intro l
  induction l with
  | nil => intro l2 d _ hup; simp [updateNamed] at hup
  | cons c cs ih =>
    intro l2 d hinv hup
    simp only [sizeInvList] at hinv
    obtain ⟨hc, hcs⟩ := hinv
    simp only [updateNamed] at hup
    by_cases hd : c.name = some d
    · rw [if_pos hd] at hup
      cases hg2 : g c with
      | none => rw [hg2] at hup; simp at hup
      | some c2 =>
        rw [hg2] at hup
        simp only [Option.map_some', Option.some.injEq] at hup
        subst hup
        obtain ⟨h1, h2⟩ := hg c c2 hc hg2
        refine ⟨by simp only [sizeInvList]; exact ⟨h1, hcs⟩, ?_⟩
        rw [childSizes_cons, childSizes_cons, h2, wadd]
        omega
    · rw [if_neg hd] at hup
      cases hrec : updateNamed d g cs with
      | none => rw [hrec] at hup; simp at hup
      | some cs2 =>
        rw [hrec] at hup
        simp only [Option.map_some', Option.some.injEq] at hup
        subst hup
        obtain ⟨h1, h2⟩ := ih hcs hrec
        refine ⟨by simp only [sizeInvList]; exact ⟨hc, h1⟩, ?_⟩
        rw [childSizes_cons, childSizes_cons]
        omega

theorem updateNamedSz_sizes {g : FlList → Option (FlList × Nat)}
    (hg : ∀ c c2 s2, sizeInv c → g c = some (c2, s2) →
      sizeInv c2 ∧ c2.size = wsub c.size s2 ∧ s2 < 2 ^ 64) :
    ∀ {l l2 : List FlList} {s2 : Nat} {d : List Char}, sizeInvList l →
      updateNamedSz d g l = some (l2, s2) →
      sizeInvList l2 ∧
        childSizes l2 % 2 ^ 64 = (childSizes l + (2 ^ 64 - s2 % 2 ^ 64)) % 2 ^ 64 ∧
        s2 < 2 ^ 64 := by
  intro l
  induction l with
  | nil => intro l2 s2 d _ hup; simp [updateNamedSz] at hup
  | cons c cs ih =>
    intro l2 s2 d hinv hup
    simp only [sizeInvList] at hinv
    obtain ⟨hc, hcs⟩ := hinv
    simp only [updateNamedSz] at hup
    by_cases hd : c.name = some d
    · rw [if_pos hd] at hup
      cases hg2 : g c with
      | none => rw [hg2] at hup; simp at hup
      | some p =>
        rw [hg2] at hup
        simp only [Option.map_some', Option.some.injEq, Prod.mk.injEq] at hup
        obtain ⟨h1, h2⟩ := hup
        subst h2
        obtain ⟨ha, hb, hlt⟩ := hg c p.1 p.2 hc (by rw [hg2])
        rw [← h1]
        refine ⟨by simp only [sizeInvList]; exact ⟨ha, hcs⟩, ?_, hlt⟩
        rw [childSizes_cons, childSizes_cons, hb, wsub]
        omega
    · rw [if_neg hd] at hup
      cases hrec : updateNamedSz d g cs with
      | none => rw [hrec] at hup; simp at hup
      | some p =>
        rw [hrec] at hup
        simp only [Option.map_some', Option.some.injEq, Prod.mk.injEq] at hup
        obtain ⟨h1, h2⟩ := hup
        obtain ⟨ha, hb, hlt⟩ := ih hcs (by rw [hrec])
        rw [← h1]
        subst h2
        refine ⟨by simp only [sizeInvList]; exact ⟨hc, ha⟩, ?_, hlt⟩
        rw [childSizes_cons, childSizes_cons]
        omega

theorem fl_list_add_inv :
    ∀ (p : List (List Char)) (t cur t2 : FlList), sizeInv t → sizeInv cur →
      fl_list_add t p cur = some t2 →
      sizeInv t2 ∧ t2.size = wadd t.size cur.size := by
  intro p
  induction p with
  | nil =>
    intro t cur t2 ht hcur hadd
    cases t with
    | file n sz tth h => simp [fl_list_add] at hadd
    | dir n sz ht2 inc sub =>
      simp only [fl_list_add, Option.some.injEq] at hadd
      subst hadd
      simp only [sizeInv] at ht
      obtain ⟨hlt, hsum, hsubinv⟩ := ht
      refine ⟨?_, by simp [FlList.size]⟩
      simp only [sizeInv]
      refine ⟨wadd_lt _ _, ?_, sizeInvList_insert hcur hsubinv⟩
      rw [childSizes_insert, wadd]
      omega
  | cons d rest ih =>
    intro t cur t2 ht hcur hadd
    cases t with
    | file n sz tth h => simp [fl_list_add] at hadd
    | dir n sz ht2 inc sub =>
      simp only [fl_list_add] at hadd
      cases hup : updateNamed d (fun c => fl_list_add c rest cur) sub with
      | none => rw [hup] at hadd; simp at hadd
      | some sub2 =>
        rw [hup] at hadd
        simp only [Option.map_some', Option.some.injEq] at hadd
        subst hadd
        simp only [sizeInv] at ht
        obtain ⟨hlt, hsum, hsubinv⟩ := ht
        have hg : ∀ c c2, sizeInv c → fl_list_add c rest cur = some c2 →
            sizeInv c2 ∧ c2.size = wadd c.size cur.size :=
          fun c c2 hc h2 => ih c cur c2 hc hcur h2
        obtain ⟨h1, h2⟩ := updateNamed_sizes hg hsubinv hup
        refine ⟨?_, by simp [FlList.size]⟩
        simp only [sizeInv]
        refine ⟨wadd_lt _ _, ?_, h1⟩
        rw [wadd]
        omega

theorem fl_list_remove_inv :
    ∀ (p : List (List Char)) (t t2 : FlList) (s2 : Nat), sizeInv t →
      fl_list_remove t p = some (t2, s2) →
      sizeInv t2 ∧ t2.size = wsub t.size s2 ∧ s2 < 2 ^ 64 := by
  intro p
  induction p with
  | nil =>
    intro t t2 s2 ht hrm
    cases t with
    | file n sz tth h => simp [fl_list_remove] at hrm
    | dir n sz ht2 inc sub => simp [fl_list_remove] at hrm
  | cons d rest ih =>
    intro t t2 s2 ht hrm
    cases t with
    | file n sz tth h => simp [fl_list_remove] at hrm
    | dir n sz ht2 inc sub =>
      cases rest with
      | nil =>
        simp only [fl_list_remove] at hrm
        cases hrn : removeNamed d sub with
        | none => rw [hrn] at hrm; simp at hrm
        | some pr =>
          rw [hrn] at hrm
          simp only [Option.map_some', Option.some.injEq, Prod.mk.injEq] at hrm
          obtain ⟨h1, h2⟩ := hrm
          simp only [sizeInv] at ht
          obtain ⟨hlt, hsum, hsubinv⟩ := ht
          obtain ⟨hcs, hinvf⟩ := removeNamed_spec hrn
          obtain ⟨hc, hcs2⟩ := hinvf hsubinv
          have hclt : pr.1.size < 2 ^ 64 := sizeInv_size_lt hc
          subst h2
          rw [← h1]
          refine ⟨?_, by simp [FlList.size], hclt⟩
          simp only [sizeInv]
          refine ⟨wsub_lt _ _, ?_, hcs2⟩
          rw [wsub]
          omega
      | cons d2 rest2 =>
        simp only [fl_list_remove] at hrm
        cases hup : updateNamedSz d (fun c => fl_list_remove c (d2 :: rest2)) sub with
        | none => rw [hup] at hrm; simp at hrm
        | some pr =>
          rw [hup] at hrm
          simp only [Option.map_some', Option.some.injEq, Prod.mk.injEq] at hrm
          obtain ⟨h1, h2⟩ := hrm
          simp only [sizeInv] at ht
          obtain ⟨hlt, hsum, hsubinv⟩ := ht
          have hg : ∀ c c2 sc, sizeInv c →
              fl_list_remove c (d2 :: rest2) = some (c2, sc) →
              sizeInv c2 ∧ c2.size = wsub c.size sc ∧ sc < 2 ^ 64 :=
            fun c c2 sc hc h3 => ih c c2 sc hc h3
          obtain ⟨ha, hb, hsl⟩ := updateNamedSz_sizes hg hsubinv hup
          subst h2
          rw [← h1]
          refine ⟨?_, by simp [FlList.size], hsl⟩
          simp only [sizeInv]
          refine ⟨wsub_lt _ _, ?_, ha⟩
          rw [wsub]
          omega

/-- C8: starting from a tree satisfying invariant I2 (in `guint64`
arithmetic: every directory's stored size is the sum of its children's sizes
reduced modulo `2 ^ 64`), any sequence of `fl_list_add` / `fl_list_remove`
operations whose inserted nodes are themselves consistent preserves the
invariant — each insertion adds the new node's size to every ancestor up to
the root and each removal subtracts it, exactly rebalancing the sums. -/
theorem c8_size_invariant_preserved (ops : List FlOp) :
    ∀ (t t2 : FlList), sizeInv t → (∀ op ∈ ops, op.ok) →
      applyOps t ops = some t2 → sizeInv t2 := by
  induction ops with
  | nil =>
    intro t t2 ht _ happ
    simp only [applyOps, Option.some.injEq] at happ
    subst happ
    exact ht
  | cons op rest ih =>
    intro t t2 ht hops happ
    simp only [applyOps] at happ
    cases hop : applyOp t op with
    | none => rw [hop] at happ; simp at happ
    | some tm =>
      rw [hop] at happ
      have htm : sizeInv tm := by
        cases op with
        | addOp p nnode =>
          have hok : sizeInv nnode := by
            have := hops _ (by simp : FlOp.addOp p nnode ∈ FlOp.addOp p nnode :: rest)
            simpa [FlOp.ok] using this
          exact (fl_list_add_inv p t nnode tm ht hok (by simpa [applyOp] using hop)).1
        | rmOp p =>
          simp only [applyOp] at hop
          cases hrm : fl_list_remove t p with
          | none => rw [hrm] at hop; simp at hop
          | some pr =>
            rw [hrm] at hop
            simp only [Option.map_some', Option.some.injEq] at hop
            subst hop
            exact (fl_list_remove_inv p t pr.1 pr.2 ht (by rw [hrm])).1
      exact ih tm t2 htm (fun op2 hm => hops op2 (by simp [hm])) happ

/-- C8 witness: inserting a 7-byte file under the root of a consistent
one-file tree yields a consistent tree with the root size rebalanced. -/
theorem c8_size_invariant_preserved_witness :
    sizeInv (FlList.dir none 12 2 false
      [FlList.file (some ['a']) 5 [] true, FlList.file (some ['b']) 7 [] true]) := by
  refine c8_size_invariant_preserved
    [FlOp.addOp [] (FlList.file (some ['b']) 7 [] true)]
    (FlList.dir none 5 1 false [FlList.file (some ['a']) 5 [] true]) _ ?_ ?_ ?_
  · simp only [sizeInv, sizeInvList, childSizes, FlList.size, List.map_cons, List.map_nil,
      List.sum_cons, List.sum_nil]
    norm_num
  · intro op hm
    simp only [List.mem_singleton] at hm
    subst hm
    simp only [FlOp.ok, sizeInv]
    norm_num
  · rfl

theorem chain_nil {t n : FlList} (h : Chain t [] n) : n = t := by
  cases h
  rfl

theorem chain_cons_not_file {c n : FlList} {x : List Char} {xs : List (List Char)}
    (h : Chain c (x :: xs) n) : c.isfile = false := by
  cases h with
  | step hmem _ _ =>
    cases c with
    | file _ _ _ _ => simp [FlList.sub] at hmem
    | dir _ _ _ _ _ => rfl

theorem wfList_mem : ∀ {l : List FlList} {c : FlList}, wfNamesList l → c ∈ l →
    (∃ nm, c.name = some nm ∧ nm ≠ [] ∧ '/' ∉ nm) ∧ wfNames c := by
  intro l
  induction l with
  | nil => intro c _ hm; simp at hm
  | cons x xs ih =>
    intro c hwf hm
    simp only [wfNamesList] at hwf
    obtain ⟨hx, hwx, hxs⟩ := hwf
    rcases List.mem_cons.mp hm with h | h
    · subst h; exact ⟨hx, hwx⟩
    · exact ih hxs h

theorem wf_mem {t c : FlList} (hwf : wfNames t) (hm : c ∈ t.sub) :
    (∃ nm, c.name = some nm ∧ nm ≠ [] ∧ '/' ∉ nm) ∧ wfNames c := by
  cases t with
  | file _ _ _ _ => simp [FlList.sub] at hm
  | dir _ _ _ _ sub =>
    simp only [wfNames] at hwf
    exact wfList_mem hwf.2 (by simpa [FlList.sub] using hm)

theorem find?_name_unique : ∀ {l : List FlList} {c : FlList} {nm : List Char},
    (l.map FlList.name).Nodup → c ∈ l → c.name = some nm →
    l.find? (fun x => x.name == some nm) = some c := by
  intro l
  induction l with
  | nil => intro c nm _ hm _; simp at hm
  | cons x xs ih =>
    intro c nm hnd hm hnm
    rw [List.map_cons, List.nodup_cons] at hnd
    obtain ⟨hnotin, hnd2⟩ := hnd
    rcases List.mem_cons.mp hm with h | h
    · subst h
      rw [List.find?_cons_of_pos]
      simp [hnm]
    · have hx : (x.name == some nm) = false := by
        simp only [beq_eq_false_iff_ne, ne_eq]
        intro heq
        apply hnotin
        rw [heq, ← hnm]
        exact List.mem_map_of_mem _ h
      rw [List.find?_cons]
      simp only [hx]
      exact ih hnd2 h hnm

theorem fl_list_file_of_mem {t c : FlList} {nm : List Char} (hwf : wfNames t)
    (hm : c ∈ t.sub) (hnm : c.name = some nm) : fl_list_file t nm = some c := by
  cases t with
  | file _ _ _ _ => simp [FlList.sub] at hm
  | dir _ _ _ _ sub =>
    simp only [wfNames] at hwf
    exact find?_name_unique hwf.1 (by simpa [FlList.sub] using hm) hnm

theorem dropWhile_slash_eq {nm : List Char} (hne : nm ≠ []) (hns : '/' ∉ nm)
    (r : List Char) : (nm ++ r).dropWhile (fun c => c == '/') = nm ++ r := by
  cases nm with
  | nil => exact absurd rfl hne
  | cons h tl =>
    have h1 : ¬ (h == '/') = true := by
      simp only [beq_iff_eq]
      intro he
      exact hns (by simp [he])
    simp [List.dropWhile_cons, h1]

theorem takeWhile_noslash {nm : List Char} (hns : '/' ∉ nm) :
    nm.takeWhile (fun c => c != '/') = nm := by
  induction nm with
  | nil => simp
  | cons h tl ih =>
    have h1 : h ≠ '/' := fun he => hns (by simp [he])
    have h2 : '/' ∉ tl := fun he => hns (by simp [he])
    simp [List.takeWhile_cons, h1, ih h2]

theorem takeWhile_append_slash {nm : List Char} (hns : '/' ∉ nm) (r : List Char) :
    (nm ++ '/' :: r).takeWhile (fun c => c != '/') = nm := by
  induction nm with
  | nil => simp [List.takeWhile_cons]
  | cons h tl ih =>
    have h1 : h ≠ '/' := fun he => hns (by simp [he])
    have h2 : '/' ∉ tl := fun he => hns (by simp [he])
    simp [List.takeWhile_cons, h1, ih h2]

theorem drop_append_slash (nm r : List Char) :
    (nm ++ '/' :: r).drop (nm.length + 1) = r := by
  rw [show nm ++ '/' :: r = (nm ++ ['/']) ++ r by simp]
  rw [show nm.length + 1 = (nm ++ ['/']).length by simp]
  exact List.drop_left _ _

theorem from_path_slash (t : FlList) (x : List Char) :
    fl_list_from_path t ('/' :: x) = fl_list_from_path t x := by
  conv_lhs => rw [fl_list_from_path.eq_def]
  conv_rhs => rw [fl_list_from_path.eq_def]
  simp only [List.dropWhile_cons, beq_self_eq_true, if_true]

/-- C9 (amended): in a tree whose sibling names are unique, nonempty and
free of `/`, resolving the rendered virtual path of any reachable node
yields that node: `fl_list_from_path(root, fl_list_path(n)) = n`. -/
theorem c9_path_roundtrip :
    ∀ (p : List (List Char)) (t n : FlList), wfNames t → Chain t p n →
      fl_list_from_path t (fl_list_path p) = some n := by
  intro p
  induction p with
  | nil =>
    intro t n hwf hch
    rw [chain_nil hch]
    rw [show fl_list_path [] = ['/'] from rfl, from_path_slash]
    rw [fl_list_from_path.eq_def]
    simp
  | cons nm p ih =>
    intro t n hwf hch
    cases hch with
    | @step _ c _ _ _ hmem hname hch2 =>
      obtain ⟨⟨nm', hnm', hne', hns'⟩, hwfc⟩ := wf_mem hwf hmem
      have hnmeq : nm' = nm := by
        rw [hname] at hnm'
        injection hnm' with h
        exact h.symm
      subst hnmeq
      have hfile : fl_list_file t nm' = some c := fl_list_file_of_mem hwf hmem hname
      cases p with
      | nil =>
        have hn : n = c := chain_nil hch2
        subst hn
        rw [show fl_list_path [nm'] = '/' :: nm' from rfl, from_path_slash]
        rw [fl_list_from_path.eq_def]
        have hdw : nm'.dropWhile (fun c => c == '/') = nm' := by
          have h0 := dropWhile_slash_eq hne' hns' []
          simpa using h0
        simp only [hdw, if_neg hne', takeWhile_noslash hns', hfile]
        simp
      | cons nm2 p2 =>
        have hnotfile : c.isfile = false := chain_cons_not_file hch2
        rw [show fl_list_path (nm' :: nm2 :: p2)
            = '/' :: (nm' ++ '/' :: renderNames (nm2 :: p2)) from rfl, from_path_slash]
        rw [fl_list_from_path.eq_def]
        have hlen : ¬ nm'.length = (nm' ++ '/' :: renderNames (nm2 :: p2)).length := by
          simp [List.length_append]
        have hne2 : ¬ (nm' ++ '/' :: renderNames (nm2 :: p2)) = [] := by simp
        have hrec := ih c n hwfc hch2
        rw [show fl_list_path (nm2 :: p2) = '/' :: renderNames (nm2 :: p2) from rfl,
          from_path_slash] at hrec
        simp only [dropWhile_slash_eq hne' hns', if_neg hne2,
          takeWhile_append_slash hns', hfile, if_neg hlen, hnotfile,
          drop_append_slash]
        simpa using hrec

/-- The tree used by the C9 counterexample: a root whose only child's name
contains a `/`; sibling names are trivially unique. -/
def slashTree : FlList :=
  FlList.dir none 5 1 false [FlList.file (some "a/b".toList) 5 [] true]

/-- C9 (counterexample): in a tree with unique sibling names whose only
child is named `a/b`, the rendered path of that child is `/a/b`, and
resolving it splits at the first `/`, looks for a child named `a`, and
fails — so `fl_list_from_path(root, fl_list_path(n))` is `NULL`, not `n`. -/
theorem c9_counterexample :
    uniqNames slashTree ∧
    Chain slashTree ["a/b".toList] (FlList.file (some "a/b".toList) 5 [] true) ∧
    fl_list_from_path slashTree (fl_list_path ["a/b".toList]) = none := by
  refine ⟨?_, ?_, ?_⟩
  · simp [uniqNames, uniqNamesList, slashTree]
  · exact Chain.step (by simp [slashTree, FlList.sub]) (by simp [FlList.name]) (Chain.refl _)
  · rw [show fl_list_path ["a/b".toList] = '/' :: "a/b".toList from rfl, from_path_slash]
    rw [fl_list_from_path.eq_def]
    simp [fl_list_file, FlList.sub, FlList.name, slashTree, List.dropWhile, List.takeWhile,
      List.find?]

/-- A well-named one-file tree for the C9 witness. -/
def goodTree : FlList := FlList.dir none 5 1 false [FlList.file (some ['a']) 5 [] true]

/-- C9 witness: in the well-named tree, the rendered path `/a` of the only
child resolves back to the child. -/
theorem c9_path_roundtrip_witness :
    fl_list_from_path goodTree (fl_list_path [['a']])
      = some (FlList.file (some ['a']) 5 [] true) := by
  apply c9_path_roundtrip
  · simp [goodTree, wfNames, wfNamesList, FlList.name]
  · exact Chain.step (by simp [goodTree, FlList.sub]) (by simp [FlList.name]) (Chain.refl _)

end Ncdc
